import Mathlib

/-!
Shallow embedding of the `memoiter` crate (src/lib.rs).

The wrapped Rust `Iterator` is modelled as a pure step function
`step : σ → Option (α × σ)` over an iterator state type `σ`: `step s = none`
models `next()` returning `None` (the producer signalling completion), and
`step s = some (a, s2)` models `next()` returning `Some(a)` with the iterator
advanced to state `s2`.

`MemoIter` is the record of the three fields of the Rust struct (capacity-only
operations — `Vec::reserve` and `Vec::shrink_to_fit` — have no observable
effect on the model).  Rust methods taking `&mut self` become functions from
the state to a pair of the new state and the returned value.  The checked
slice indexing `&seq[a..b]` (which panics when out of bounds) is modelled by
`listSlice`, which returns `none` exactly when Rust would panic; consequently
`get_slice` returns an `Option`.
-/

namespace Memoiter

/-- The three-variant bound type of `std::collections::Bound`, specialised to
`usize` indices (modelled as `Nat`). -/
inductive Bound : Type where
  | unbounded : Bound
  | included : Nat → Bound
  | excluded : Nat → Bound
deriving DecidableEq, Repr

/-- The `MemoIter` struct: `exhausted: bool`, `iterator: I`, `sequence: Vec<T>`. -/
structure MemoIter (σ α : Type) where
  exhausted : Bool
  iterator : σ
  sequence : List α
deriving DecidableEq, Repr

/-- `MemoIter::new`: empty sequence, not exhausted. -/
def MemoIter.new {σ α : Type} (it : σ) : MemoIter σ α :=
  ⟨false, it, []⟩

/-- `MemoIter::with_capacity`: the capacity is a `Vec` allocation hint with no
observable effect in the model, so the state is that of `new`. -/
def MemoIter.with_capacity {σ α : Type} (_capacity : Nat) (it : σ) : MemoIter σ α :=
  ⟨false, it, []⟩

/-- `MemoIter::with_vec`: pre-populated storage, not exhausted. -/
def MemoIter.with_vec {σ α : Type} (it : σ) (seq : List α) : MemoIter σ α :=
  ⟨false, it, seq⟩

/-- `MemoIter::evaluated`: `self.sequence.len()`. -/
def evaluated {σ α : Type} (m : MemoIter σ α) : Nat :=
  m.sequence.length

/-- `MemoIter::is_exhausted`: `self.exhausted`. -/
def is_exhausted {σ α : Type} (m : MemoIter σ α) : Bool :=
  m.exhausted

/-- `MemoIter::consume`: returns the stored vector and the iterator. -/
def consume {σ α : Type} (m : MemoIter σ α) : List α × σ :=
  (m.sequence, m.iterator)

/-- The `for _i in len..=idx` loop body of `expand_to_contain`, with the
number of remaining loop iterations (`idx - len + 1` at the call site) made
explicit.  Each iteration calls `self.iterator.next()`; on `Some` it pushes
the value and continues, on `None` it sets `exhausted` and returns
(`shrink_to_fit` is capacity-only and unmodelled). -/
def expandLoop {σ α : Type} (step : σ → Option (α × σ)) :
    Nat → MemoIter σ α → MemoIter σ α
  | 0, m => m
  | fuel + 1, m =>
    match step m.iterator with
    | some (nxt, it2) => expandLoop step fuel ⟨m.exhausted, it2, m.sequence ++ [nxt]⟩
    | none => ⟨true, m.iterator, m.sequence⟩

/-- `MemoIter::expand_to_contain`: no-op when exhausted or when
`idx < sequence.len()`; otherwise runs the pull loop for `idx - len + 1`
iterations (`Vec::reserve` is capacity-only and unmodelled). -/
def expand_to_contain {σ α : Type} (step : σ → Option (α × σ))
    (m : MemoIter σ α) (idx : Nat) : MemoIter σ α :=
  if !m.exhausted then
    if idx ≥ m.sequence.length then
      expandLoop step (idx - m.sequence.length + 1) m
    else m
  else m

/-- `MemoIter::get`: `expand_to_contain(idx)` then `self.sequence.get(idx)`. -/
def get {σ α : Type} (step : σ → Option (α × σ))
    (m : MemoIter σ α) (idx : Nat) : MemoIter σ α × Option α :=
  let m2 := expand_to_contain step m idx
  (m2, m2.sequence[idx]?)

/-- Normalisation of the start bound in `get_slice`: `Unbounded => 0`,
`Included(i) => i`, `Excluded(i) => i + 1`. -/
def startIndex : Bound → Nat
  | Bound.unbounded => 0
  | Bound.included i => i
  | Bound.excluded i => i + 1

/-- Rust checked slice indexing `&xs[a..b]`: defined (`some`) exactly when
`a ≤ b ∧ b ≤ xs.length`, and a panic (`none`) otherwise.  The inclusive form
`&xs[a..=b]` is `&xs[a..b+1]`. -/
def listSlice {α : Type} (xs : List α) (a b : Nat) : Option (List α) :=
  if a ≤ b ∧ b ≤ xs.length then some ((xs.take b).drop a) else none

/-- `MemoIter::get_slice`, branch for branch:
* unbounded end: no expansion, returns `&sequence[first.min(end)..end]` with
  `end = sequence.len()`;
* inclusive end `i`: `expand_to_contain(i)`, then
  `last = sequence.len().saturating_sub(1).min(i)`; if `first ≤ last` the
  result is `&sequence[first..=last]`, otherwise the empty slice;
* exclusive end `i`: `expand_to_contain(i.saturating_sub(1))`, then
  `end = sequence.len().min(i)` and the result is
  `&sequence[first.min(end)..end]`.
`none` models a panic of the underlying slice indexing. -/
def get_slice {σ α : Type} (step : σ → Option (α × σ))
    (m : MemoIter σ α) (startB endB : Bound) :
    Option (MemoIter σ α × List α) :=
  let first := startIndex startB
  match endB with
  | Bound.unbounded =>
    let e := m.sequence.length
    (listSlice m.sequence (min first e) e).map (fun v => (m, v))
  | Bound.included i =>
    let m2 := expand_to_contain step m i
    let last := min (m2.sequence.length - 1) i
    if first ≤ last then
      (listSlice m2.sequence first (last + 1)).map (fun v => (m2, v))
    else
      some (m2, [])
  | Bound.excluded i =>
    let m2 := expand_to_contain step m (i - 1)
    let e := min m2.sequence.length i
    (listSlice m2.sequence (min first e) e).map (fun v => (m2, v))

/-- `MemoIter::recall`: `self.sequence.get(idx)`, no other effect. -/
def MemoIter.recall {σ α : Type} (m : MemoIter σ α) (idx : Nat) :
    MemoIter σ α × Option α :=
  (m, m.sequence[idx]?)

/-- `<MemoIter as Iterator>::next`: when not exhausted, one `iterator.next()`
call — on `Some` push and yield the value, on `None` set `exhausted`
(`shrink_to_fit` unmodelled) and yield nothing; when exhausted, yield nothing
without touching the iterator. -/
def next {σ α : Type} (step : σ → Option (α × σ))
    (m : MemoIter σ α) : MemoIter σ α × Option α :=
  if !m.exhausted then
    match step m.iterator with
    | some (nxt, it2) => (⟨m.exhausted, it2, m.sequence ++ [nxt]⟩, some nxt)
    | none => (⟨true, m.iterator, m.sequence⟩, none)
  else (m, none)

/-- `<MemoIter as ExactSizeIterator>::len`:
`self.sequence.len() + self.iterator.len()`, where `sz` models the wrapped
producer's `ExactSizeIterator::len`. -/
def len {σ α : Type} (sz : σ → Nat) (m : MemoIter σ α) : Nat :=
  m.sequence.length + sz m.iterator

/-- The list of up to `n` further values the producer yields from state `s`,
stopping early at the first completion signal.  This is the specification of
the external producer collaborator, not code of the crate. -/
def streamTake {σ α : Type} (step : σ → Option (α × σ)) : σ → Nat → List α
  | _, 0 => []
  | s, n + 1 =>
    match step s with
    | none => []
    | some (a, s2) => a :: streamTake step s2 n

/-- The value at position `n` of the producer's output sequence from state
`s` (`none` when the producer signals completion at or before position `n`).
Specification of the external producer collaborator. -/
def streamNth {σ α : Type} (step : σ → Option (α × σ)) : σ → Nat → Option α
  | s, 0 => (step s).map Prod.fst
  | s, n + 1 =>
    match step s with
    | none => none
    | some (_, s2) => streamNth step s2 n

/-- The `ExactSizeIterator` contract for a producer `step` with reported
remaining count `sz`: a completed producer reports `0`, and each yielded
value decreases the report by exactly one. -/
def IsExactSize {σ α : Type} (step : σ → Option (α × σ)) (sz : σ → Nat) : Prop :=
  (∀ s, step s = none → sz s = 0) ∧
  (∀ s a s2, step s = some (a, s2) → sz s = sz s2 + 1)

/-- A concrete finite producer modelling Rust's `0..n` range iterator. -/
def rangeStep (n : Nat) : Nat → Option (Nat × Nat) :=
  fun s => if s < n then some (s, s + 1) else none

/-- A concrete producer modelling `std::iter::empty`. -/
def emptyStep : Unit → Option (Nat × Unit) :=
  fun _ => none

example : get (rangeStep 5) (MemoIter.new 0) 3 = (⟨false, 4, [0, 1, 2, 3]⟩, some 3) := by decide

example : get (rangeStep 5) (MemoIter.new 0) 7 = (⟨true, 5, [0, 1, 2, 3, 4]⟩, none) := by decide

example :
    get_slice (rangeStep 5) (MemoIter.new 0) (Bound.included 4) (Bound.included 20) =
      some (⟨true, 5, [0, 1, 2, 3, 4]⟩, [4]) := by decide

example :
    get_slice emptyStep (MemoIter.new ()) (Bound.included 0) (Bound.included 0) = none := by
  decide

/-! ### Helper lemmas about the expansion loop -/

theorem expandLoop_sequence {σ α : Type} (step : σ → Option (α × σ)) :
    ∀ (fuel : Nat) (m : MemoIter σ α),
      (expandLoop step fuel m).sequence = m.sequence ++ streamTake step m.iterator fuel := by
  intro fuel
  induction fuel with
  | zero => intro m; simp [expandLoop, streamTake]
  | succ n ih =>
    intro m
    cases hstep : step m.iterator with
    | none => simp [expandLoop, streamTake, hstep]
    | some p =>
      obtain ⟨a, s2⟩ := p
      simp [expandLoop, streamTake, hstep, ih]

theorem expandLoop_length_of_not_exhausted {σ α : Type} (step : σ → Option (α × σ)) :
    ∀ (fuel : Nat) (m : MemoIter σ α),
      (expandLoop step fuel m).exhausted = false →
        (expandLoop step fuel m).sequence.length = m.sequence.length + fuel := by
  intro fuel
  induction fuel with
  | zero => intro m _; simp [expandLoop]
  | succ n ih =>
    intro m h
    cases hstep : step m.iterator with
    | none => simp [expandLoop, hstep] at h
    | some p =>
      obtain ⟨a, s2⟩ := p
      simp only [expandLoop, hstep] at h ⊢
      have := ih ⟨m.exhausted, s2, m.sequence ++ [a]⟩ h
      simp only [this, List.length_append, List.length_cons, List.length_nil]
      omega

theorem expandLoop_step_none {σ α : Type} (step : σ → Option (α × σ)) :
    ∀ (fuel : Nat) (m : MemoIter σ α), m.exhausted = false →
      (expandLoop step fuel m).exhausted = true →
        step (expandLoop step fuel m).iterator = none := by
  intro fuel
  induction fuel with
  | zero => intro m hm h; simp [expandLoop] at h; rw [hm] at h; exact absurd h (by simp)
  | succ n ih =>
    intro m hm h
    cases hstep : step m.iterator with
    | none => simp [expandLoop, hstep]
    | some p =>
      obtain ⟨a, s2⟩ := p
      simp only [expandLoop, hstep] at h ⊢
      exact ih ⟨m.exhausted, s2, m.sequence ++ [a]⟩ hm h

theorem expandLoop_len {σ α : Type} (step : σ → Option (α × σ)) (sz : σ → Nat)
    (h2 : ∀ s a s2, step s = some (a, s2) → sz s = sz s2 + 1) :
    ∀ (fuel : Nat) (m : MemoIter σ α),
      len sz (expandLoop step fuel m) = len sz m := by
  intro fuel
  induction fuel with
  | zero => intro m; simp [expandLoop]
  | succ n ih =>
    intro m
    cases hstep : step m.iterator with
    | none => simp [expandLoop, hstep, len]
    | some p =>
      obtain ⟨a, s2⟩ := p
      simp only [expandLoop, hstep]
      rw [ih ⟨m.exhausted, s2, m.sequence ++ [a]⟩]
      simp only [len, List.length_append, List.length_cons, List.length_nil]
      rw [h2 m.iterator a s2 hstep]
      omega

/-! ### Helper lemmas about `expand_to_contain` -/

theorem expand_eq_of_exhausted {σ α : Type} (step : σ → Option (α × σ))
    (m : MemoIter σ α) (i : Nat) (h : m.exhausted = true) :
    expand_to_contain step m i = m := by
  simp [expand_to_contain, h]

theorem expand_eq_of_lt {σ α : Type} (step : σ → Option (α × σ))
    (m : MemoIter σ α) (i : Nat) (h : i < m.sequence.length) :
    expand_to_contain step m i = m := by
  cases hm : m.exhausted <;> simp [expand_to_contain, hm, Nat.not_le.mpr h]

theorem expand_eq_loop {σ α : Type} (step : σ → Option (α × σ))
    (m : MemoIter σ α) (i : Nat)
    (hm : m.exhausted = false) (hl : m.sequence.length ≤ i) :
    expand_to_contain step m i = expandLoop step (i - m.sequence.length + 1) m := by
  simp [expand_to_contain, hm, hl]

theorem expand_sequence_grows {σ α : Type} (step : σ → Option (α × σ))
    (m : MemoIter σ α) (i : Nat) :
    ∃ l, (expand_to_contain step m i).sequence = m.sequence ++ l := by
  cases hm : m.exhausted with
  | true => exact ⟨[], by simp [expand_eq_of_exhausted step m i hm]⟩
  | false =>
    by_cases hl : m.sequence.length ≤ i
    · refine ⟨streamTake step m.iterator (i - m.sequence.length + 1), ?_⟩
      rw [expand_eq_loop step m i hm hl, expandLoop_sequence]
    · exact ⟨[], by simp [expand_eq_of_lt step m i (by omega)]⟩

theorem expand_post {σ α : Type} (step : σ → Option (α × σ))
    (m : MemoIter σ α) (i : Nat) :
    i < (expand_to_contain step m i).sequence.length ∨
      (expand_to_contain step m i).exhausted = true := by
  cases hm : m.exhausted with
  | true => right; rw [expand_eq_of_exhausted step m i hm]; exact hm
  | false =>
    by_cases hl : m.sequence.length ≤ i
    · rw [expand_eq_loop step m i hm hl]
      cases hx : (expandLoop step (i - m.sequence.length + 1) m).exhausted with
      | true => right; rfl
      | false =>
        left
        rw [expandLoop_length_of_not_exhausted step _ m hx]
        omega
    · left
      rw [expand_eq_of_lt step m i (by omega)]
      omega

/-! ### Helper lemmas about the producer's output sequence -/

theorem streamTake_some {σ α : Type} (step : σ → Option (α × σ)) {s : σ} {a : α} {s2 : σ}
    (h : step s = some (a, s2)) (n : Nat) :
    streamTake step s (n + 1) = a :: streamTake step s2 n := by
  simp [streamTake, h]

theorem streamTake_none {σ α : Type} (step : σ → Option (α × σ)) {s : σ}
    (h : step s = none) (n : Nat) :
    streamTake step s (n + 1) = [] := by
  simp [streamTake, h]

theorem streamNth_some {σ α : Type} (step : σ → Option (α × σ)) {s : σ} {a : α} {s2 : σ}
    (h : step s = some (a, s2)) (n : Nat) :
    streamNth step s (n + 1) = streamNth step s2 n := by
  simp [streamNth, h]

theorem streamNth_none {σ α : Type} (step : σ → Option (α × σ)) {s : σ}
    (h : step s = none) (n : Nat) :
    streamNth step s n = none := by
  cases n <;> simp [streamNth, h]

theorem streamTake_getElem {σ α : Type} (step : σ → Option (α × σ)) :
    ∀ (i : Nat) (s : σ), (streamTake step s (i + 1))[i]? = streamNth step s i := by
  intro i
  induction i with
  | zero =>
    intro s
    cases hstep : step s with
    | none => simp [streamTake, streamNth, hstep]
    | some p =>
      obtain ⟨a, s2⟩ := p
      simp [streamTake, streamNth, hstep]
  | succ n ih =>
    intro s
    cases hstep : step s with
    | none =>
      rw [streamTake_none step hstep, streamNth_none step hstep]
      simp
    | some p =>
      obtain ⟨a, s2⟩ := p
      rw [streamTake_some step hstep, List.getElem?_cons_succ,
        streamNth_some step hstep]
      exact ih s2

theorem get_snd_eq {σ α : Type} (step : σ → Option (α × σ))
    (it : σ) (seq : List α) (i : Nat) :
    (get step ⟨false, it, seq⟩ i).2 =
      (seq ++ streamTake step it (i + 1 - seq.length))[i]? := by
  by_cases hl : seq.length ≤ i
  · rw [show (get step (⟨false, it, seq⟩ : MemoIter σ α) i).2
          = (expand_to_contain step ⟨false, it, seq⟩ i).sequence[i]? from rfl]
    rw [expand_eq_loop step ⟨false, it, seq⟩ i rfl hl, expandLoop_sequence]
    have h1 : i - seq.length + 1 = i + 1 - seq.length := by omega
    rw [h1]
  · rw [show (get step (⟨false, it, seq⟩ : MemoIter σ α) i).2
          = (expand_to_contain step ⟨false, it, seq⟩ i).sequence[i]? from rfl]
    rw [expand_eq_of_lt step ⟨false, it, seq⟩ i (by simpa using Nat.lt_of_not_le hl)]
    have h0 : i + 1 - seq.length = 0 := by omega
    rw [h0]
    simp [streamTake]

/-! ### Claim theorems -/

/-- Claim C2: `get(i)` first expands the cache to contain `i` and then returns
the cached value at position `i`; for a fresh container this is the value at
position `i` of the producer's output sequence when the producer yields more
than `i` values, and `none` (absence, not a fault) when the producer signals
completion first. -/
theorem c2_get_returns_producer_value {σ α : Type} (step : σ → Option (α × σ))
    (it : σ) (seq : List α) (i : Nat) :
    get step ⟨false, it, seq⟩ i =
      (expand_to_contain step ⟨false, it, seq⟩ i,
        (expand_to_contain step ⟨false, it, seq⟩ i).sequence[i]?) ∧
    (get step ⟨false, it, seq⟩ i).2 =
      (seq ++ streamTake step it (i + 1 - seq.length))[i]? ∧
    (get step (MemoIter.new it) i).2 = streamNth step it i := by
  refine ⟨rfl, get_snd_eq step it seq i, ?_⟩
  have h := get_snd_eq step it ([] : List α) i
  simp only [List.nil_append, List.length_nil, Nat.sub_zero] at h
  rw [show (MemoIter.new it : MemoIter σ α) = ⟨false, it, []⟩ from rfl, h,
    streamTake_getElem]

/-- Claim C3: after `expand_to_contain(index)` either the cache contains the
index or the container is exhausted; the call only appends to the cache (all
elements appended before a completion signal remain cached); and when the
flag is newly set the iterator has just signalled completion and is advanced
no further. -/
theorem c3_expand_to_contain_postcondition {σ α : Type} (step : σ → Option (α × σ))
    (m : MemoIter σ α) (i : Nat) :
    (i < (expand_to_contain step m i).sequence.length ∨
      (expand_to_contain step m i).exhausted = true) ∧
    (∃ l, (expand_to_contain step m i).sequence = m.sequence ++ l) ∧
    (m.exhausted = false → (expand_to_contain step m i).exhausted = true →
      step (expand_to_contain step m i).iterator = none) := by
  refine ⟨expand_post step m i, expand_sequence_grows step m i, ?_⟩
  intro hm hx
  by_cases hl : m.sequence.length ≤ i
  · rw [expand_eq_loop step m i hm hl] at hx ⊢
    exact expandLoop_step_none step _ m hm hx
  · rw [expand_eq_of_lt step m i (by omega)] at hx
    simp [hm] at hx

/-- Witness for C3 at a concrete input: expanding a fresh container over the
empty producer to contain index 0 sets the flag, with the producer having
signalled completion. -/
theorem c3_expand_witness :
    (MemoIter.new () : MemoIter Unit Nat).exhausted = false ∧
    (expand_to_contain emptyStep (MemoIter.new ()) 0).exhausted = true ∧
    emptyStep (expand_to_contain emptyStep (MemoIter.new () : MemoIter Unit Nat) 0).iterator =
      none :=
  ⟨rfl, by decide,
    (c3_expand_to_contain_postcondition emptyStep (MemoIter.new ()) 0).2.2 rfl (by decide)⟩

/-- Claim C5: a slice request with an unbounded end bound leaves the container
completely untouched (no producer advance, same cache, same flag) and returns
the view of the already-cached values from `min(s, len)` to `len`. -/
theorem c5_get_slice_unbounded_end_nonforcing {σ α : Type} (step : σ → Option (α × σ))
    (m : MemoIter σ α) (b : Bound) :
    get_slice step m b Bound.unbounded =
      some (m, m.sequence.drop (min (startIndex b) m.sequence.length)) := by
  simp [get_slice, listSlice, Nat.min_le_right, List.take_length]

/-- Claim C6: `recall(i)` is a pure, non-forcing peek: the state is unchanged,
the result is the cached value at `i`, and the result is absent exactly when
`i` is not yet cached. -/
theorem c6_recall_pure_peek {σ α : Type} (m : MemoIter σ α) (i : Nat) :
    MemoIter.recall m i = (m, m.sequence[i]?) ∧
    ((MemoIter.recall m i).2 = none ↔ m.sequence.length ≤ i) := by
  refine ⟨rfl, ?_⟩
  simp [MemoIter.recall, List.getElem?_eq_none_iff]

/-- Claim C1, evaluated at the failing input: wrapping the empty producer and
driving it once leaves an exhausted container with an empty cache; the
inclusive slice request `0..=0` on it then computes
`last = 0.saturating_sub(1).min(0) = 0`, passes the `first ≤ last` guard, and
evaluates `&sequence[0..=0]` on the empty store — a fatal bounds violation
(modelled by `none`), not the empty view the claim requires. -/
theorem c1_get_slice_faults_on_exhausted_empty :
    (get emptyStep (MemoIter.new ()) 0).1 = (⟨true, (), []⟩ : MemoIter Unit Nat) ∧
    get_slice emptyStep (get emptyStep (MemoIter.new ()) 0).1
      (Bound.included 0) (Bound.included 0) = none := by
  decide

/-- Counterexample to claim C4: on a fresh container over the producer `0..5`,
a slice request with exclusive end bound 0 advances the producer — the
evaluated count of the resulting state is 1, not the original 0 — because the
code expands to contain index `0.saturating_sub(1) = 0`. -/
theorem c4_counterexample_excluded_zero_forces :
    (get_slice (rangeStep 5) (MemoIter.new 0) Bound.unbounded (Bound.excluded 0)).map
        (fun r => evaluated r.1) ≠
      some (evaluated (MemoIter.new 0 : MemoIter Nat Nat)) := by
  decide

/-- Claim C4 (amended): for an exclusive end bound `i`, `get_slice` forces
expansion to contain index `i - 1` computed with saturating subtraction — so
for `i = 0` it expands to contain index 0, which may advance the producer by
one element — and never faults, returning `cache[min(s, end)..end]` with
`end = min(cache.length, i)` over the expanded cache. -/
theorem c4_get_slice_excluded_end_spec {σ α : Type} (step : σ → Option (α × σ))
    (m : MemoIter σ α) (b : Bound) (i : Nat) :
    get_slice step m b (Bound.excluded i) =
      some (expand_to_contain step m (i - 1),
        ((expand_to_contain step m (i - 1)).sequence.take
            (min (expand_to_contain step m (i - 1)).sequence.length i)).drop
          (min (startIndex b)
            (min (expand_to_contain step m (i - 1)).sequence.length i))) := by
  simp [get_slice, listSlice, Nat.min_le_right, Nat.min_le_left]

/-- On an exhausted container, the state component of any defined `get_slice`
result is the original state. -/
theorem get_slice_fst_of_exhausted {σ α : Type} (step : σ → Option (α × σ))
    (m : MemoIter σ α) (b e : Bound) (h : m.exhausted = true) :
    (get_slice step m b e).map Prod.fst = (get_slice step m b e).map (fun _ => m) := by
  cases e with
  | unbounded =>
    cases hs : listSlice m.sequence (min (startIndex b) m.sequence.length)
        m.sequence.length with
    | none => simp [get_slice, hs]
    | some v => simp [get_slice, hs]
  | included j =>
    rw [show get_slice step m b (Bound.included j)
        = (if startIndex b ≤ min (m.sequence.length - 1) j then
            (listSlice m.sequence (startIndex b) (min (m.sequence.length - 1) j + 1)).map
              (fun v => (m, v))
          else some (m, [])) from by
      simp [get_slice, expand_eq_of_exhausted step m j h]]
    by_cases hc : startIndex b ≤ min (m.sequence.length - 1) j
    · rw [if_pos hc]
      cases hs : listSlice m.sequence (startIndex b) (min (m.sequence.length - 1) j + 1) <;>
        simp [hs]
    · rw [if_neg hc]
      simp
  | excluded j =>
    rw [show get_slice step m b (Bound.excluded j)
        = (listSlice m.sequence (min (startIndex b) (min m.sequence.length j))
            (min m.sequence.length j)).map (fun v => (m, v)) from by
      simp [get_slice, expand_eq_of_exhausted step m (j - 1) h]]
    cases hs : listSlice m.sequence (min (startIndex b) (min m.sequence.length j))
        (min m.sequence.length j) <;> simp [hs]

/-- Branch unfolding for `get_slice` with an unbounded end bound. -/
theorem get_slice_unbounded_eq {σ α : Type} (step : σ → Option (α × σ))
    (m : MemoIter σ α) (b : Bound) :
    get_slice step m b Bound.unbounded =
      (listSlice m.sequence (min (startIndex b) m.sequence.length)
        m.sequence.length).map (fun v => (m, v)) := rfl

/-- Branch unfolding for `get_slice` with an inclusive end bound. -/
theorem get_slice_included_eq {σ α : Type} (step : σ → Option (α × σ))
    (m : MemoIter σ α) (b : Bound) (j : Nat) :
    get_slice step m b (Bound.included j) =
      (if startIndex b ≤ min ((expand_to_contain step m j).sequence.length - 1) j then
        (listSlice (expand_to_contain step m j).sequence (startIndex b)
          (min ((expand_to_contain step m j).sequence.length - 1) j + 1)).map
          (fun v => (expand_to_contain step m j, v))
      else some (expand_to_contain step m j, [])) := rfl

/-- Branch unfolding for `get_slice` with an exclusive end bound. -/
theorem get_slice_excluded_eq {σ α : Type} (step : σ → Option (α × σ))
    (m : MemoIter σ α) (b : Bound) (j : Nat) :
    get_slice step m b (Bound.excluded j) =
      (listSlice (expand_to_contain step m (j - 1)).sequence
        (min (startIndex b) (min (expand_to_contain step m (j - 1)).sequence.length j))
        (min (expand_to_contain step m (j - 1)).sequence.length j)).map
        (fun v => (expand_to_contain step m (j - 1), v)) := rfl

/-- Claim C7: exhaustion is terminal — on an exhausted container, `get`, the
iteration overlay and `recall` return the state completely unchanged (cache,
flag and iterator intact, so the flag is never reset, the producer is never
advanced, and `evaluated` is frozen), and every defined `get_slice` result
also carries the unchanged state. -/
theorem c7_exhausted_state_frozen {σ α : Type} (step : σ → Option (α × σ))
    (it : σ) (seq : List α) (i : Nat) (b e : Bound) :
    is_exhausted ⟨true, it, seq⟩ = true ∧
    get step ⟨true, it, seq⟩ i = (⟨true, it, seq⟩, seq[i]?) ∧
    next step ⟨true, it, seq⟩ = (⟨true, it, seq⟩, none) ∧
    MemoIter.recall ⟨true, it, seq⟩ i = (⟨true, it, seq⟩, seq[i]?) ∧
    (get_slice step ⟨true, it, seq⟩ b e).map Prod.fst =
      (get_slice step ⟨true, it, seq⟩ b e).map
        (fun _ => (⟨true, it, seq⟩ : MemoIter σ α)) :=
  ⟨rfl, rfl, rfl, rfl, get_slice_fst_of_exhausted step ⟨true, it, seq⟩ b e rfl⟩

/-- Every defined `get_slice` result carries a state whose cache extends the
original cache. -/
theorem get_slice_sequence_grows {σ α : Type} (step : σ → Option (α × σ))
    (m : MemoIter σ α) (b e : Bound) :
    ∃ l, (get_slice step m b e).map (fun r => r.1.sequence) =
      (get_slice step m b e).map (fun _ => m.sequence ++ l) := by
  cases e with
  | unbounded =>
    refine ⟨[], ?_⟩
    rw [get_slice_unbounded_eq]
    cases hs : listSlice m.sequence (min (startIndex b) m.sequence.length)
        m.sequence.length <;> simp [hs]
  | included j =>
    obtain ⟨l, hl⟩ := expand_sequence_grows step m j
    refine ⟨l, ?_⟩
    rw [get_slice_included_eq]
    by_cases hc : startIndex b ≤ min ((expand_to_contain step m j).sequence.length - 1) j
    · rw [if_pos hc]
      cases hs : listSlice (expand_to_contain step m j).sequence (startIndex b)
          (min ((expand_to_contain step m j).sequence.length - 1) j + 1) <;> simp [hs, hl]
    · rw [if_neg hc]
      simp [hl]
  | excluded j =>
    obtain ⟨l, hl⟩ := expand_sequence_grows step m (j - 1)
    refine ⟨l, ?_⟩
    rw [get_slice_excluded_eq]
    cases hs : listSlice (expand_to_contain step m (j - 1)).sequence
        (min (startIndex b) (min (expand_to_contain step m (j - 1)).sequence.length j))
        (min (expand_to_contain step m (j - 1)).sequence.length j) <;> simp [hs, hl]

/-- The iteration overlay only appends to the cache. -/
theorem next_sequence_grows {σ α : Type} (step : σ → Option (α × σ))
    (m : MemoIter σ α) :
    ∃ l, (next step m).1.sequence = m.sequence ++ l := by
  cases hm : m.exhausted with
  | true => exact ⟨[], by simp [next, hm]⟩
  | false =>
    cases hstep : step m.iterator with
    | none => exact ⟨[], by simp [next, hm, hstep]⟩
    | some p =>
      obtain ⟨a, s2⟩ := p
      exact ⟨[a], by simp [next, hm, hstep]⟩

/-- Claim C8: the cache is append-only across `get`, the iteration overlay
and `get_slice` (so `evaluated` is non-decreasing and already-cached values
never change), and `get` below the cached length is idempotent: it leaves the
state untouched — zero further producer calls — and returns the cached value,
which is also unchanged by any earlier expanding `get`. -/
theorem c8_append_only_no_recompute {σ α : Type} (step : σ → Option (α × σ))
    (m : MemoIter σ α) (n k : Nat) (b e : Bound) (h : k < m.sequence.length) :
    (∃ l, (get step m n).1.sequence = m.sequence ++ l) ∧
    (∃ l, (next step m).1.sequence = m.sequence ++ l) ∧
    (∃ l, (get_slice step m b e).map (fun r => r.1.sequence) =
      (get_slice step m b e).map (fun _ => m.sequence ++ l)) ∧
    get step m k = (m, m.sequence[k]?) ∧
    ((get step m n).1.sequence)[k]? = m.sequence[k]? := by
  refine ⟨expand_sequence_grows step m n, next_sequence_grows step m,
    get_slice_sequence_grows step m b e, ?_, ?_⟩
  · have he := expand_eq_of_lt step m k h
    simp [get, he]
  · obtain ⟨l, hl⟩ := expand_sequence_grows step m n
    rw [show (get step m n).1 = expand_to_contain step m n from rfl, hl,
      List.getElem?_append]
    simp [h]

/-- Witness for C8 at a concrete input: a container over `0..5` that has
already cached `[0, 1, 2]`, with `n = 4` and `k = 1`. -/
theorem c8_witness :
    1 < (⟨false, 3, [0, 1, 2]⟩ : MemoIter Nat Nat).sequence.length ∧
    ((∃ l, (get (rangeStep 5) (⟨false, 3, [0, 1, 2]⟩ : MemoIter Nat Nat) 4).1.sequence =
        [0, 1, 2] ++ l) ∧
      (∃ l, (next (rangeStep 5) (⟨false, 3, [0, 1, 2]⟩ : MemoIter Nat Nat)).1.sequence =
        [0, 1, 2] ++ l) ∧
      (∃ l, (get_slice (rangeStep 5) (⟨false, 3, [0, 1, 2]⟩ : MemoIter Nat Nat)
            Bound.unbounded Bound.unbounded).map (fun r => r.1.sequence) =
        (get_slice (rangeStep 5) (⟨false, 3, [0, 1, 2]⟩ : MemoIter Nat Nat)
            Bound.unbounded Bound.unbounded).map (fun _ => [0, 1, 2] ++ l)) ∧
      get (rangeStep 5) (⟨false, 3, [0, 1, 2]⟩ : MemoIter Nat Nat) 1 =
        ((⟨false, 3, [0, 1, 2]⟩ : MemoIter Nat Nat), ([0, 1, 2] : List Nat)[1]?) ∧
      ((get (rangeStep 5) (⟨false, 3, [0, 1, 2]⟩ : MemoIter Nat Nat) 4).1.sequence)[1]? =
        ([0, 1, 2] : List Nat)[1]?) :=
  ⟨by decide, c8_append_only_no_recompute (rangeStep 5) ⟨false, 3, [0, 1, 2]⟩ 4 1
    Bound.unbounded Bound.unbounded (by decide)⟩

/-- Claim C9: the iteration overlay: when not exhausted and the producer
yields a value, the value is appended to the cache and yielded; when not
exhausted and the producer signals completion, the container is marked
exhausted and nothing is yielded; when already exhausted, nothing is yielded
and the iterator is untouched. -/
theorem c9_next_overlay_spec {σ α : Type} (step : σ → Option (α × σ))
    (it : σ) (seq : List α) (a : α) (s2 : σ) :
    (step it = some (a, s2) →
      next step ⟨false, it, seq⟩ = (⟨false, s2, seq ++ [a]⟩, some a)) ∧
    (step it = none →
      next step ⟨false, it, seq⟩ = (⟨true, it, seq⟩, none)) ∧
    next step ⟨true, it, seq⟩ = (⟨true, it, seq⟩, none) := by
  refine ⟨?_, ?_, rfl⟩
  · intro hstep
    simp [next, hstep]
  · intro hstep
    simp [next, hstep]

/-- Witness for C9 at concrete inputs: the producer `0..1` yields once, then
signals completion. -/
theorem c9_next_witness :
    rangeStep 1 0 = some (0, 1) ∧
    next (rangeStep 1) ⟨false, 0, []⟩ = ((⟨false, 1, [0]⟩ : MemoIter Nat Nat), some 0) ∧
    rangeStep 1 1 = none ∧
    next (rangeStep 1) ⟨false, 1, [0]⟩ = ((⟨true, 1, [0]⟩ : MemoIter Nat Nat), none) :=
  ⟨by decide, (c9_next_overlay_spec (rangeStep 1) 0 [] 0 1).1 (by decide),
    by decide, (c9_next_overlay_spec (rangeStep 1) 1 [0] 0 1).2.1 (by decide)⟩

/-- `expand_to_contain` preserves `len` when the producer honours the
exact-size contract. -/
theorem expand_len {σ α : Type} (step : σ → Option (α × σ)) (sz : σ → Nat)
    (h2 : ∀ s a s2, step s = some (a, s2) → sz s = sz s2 + 1)
    (m : MemoIter σ α) (i : Nat) :
    len sz (expand_to_contain step m i) = len sz m := by
  cases hm : m.exhausted with
  | true => rw [expand_eq_of_exhausted step m i hm]
  | false =>
    by_cases hl : m.sequence.length ≤ i
    · rw [expand_eq_loop step m i hm hl]
      exact expandLoop_len step sz h2 _ m
    · rw [expand_eq_of_lt step m i (by omega)]

/-- Every defined `get_slice` result carries a state with the same `len` as
the original, under the exact-size contract. -/
theorem get_slice_len_invariant {σ α : Type} (step : σ → Option (α × σ)) (sz : σ → Nat)
    (h2 : ∀ s a s2, step s = some (a, s2) → sz s = sz s2 + 1)
    (m : MemoIter σ α) (b e : Bound) :
    (get_slice step m b e).map (fun r => len sz r.1) =
      (get_slice step m b e).map (fun _ => len sz m) := by
  cases e with
  | unbounded =>
    rw [get_slice_unbounded_eq]
    cases hs : listSlice m.sequence (min (startIndex b) m.sequence.length)
        m.sequence.length <;> simp [hs]
  | included j =>
    have hp := expand_len step sz h2 m j
    rw [get_slice_included_eq]
    by_cases hc : startIndex b ≤ min ((expand_to_contain step m j).sequence.length - 1) j
    · rw [if_pos hc]
      cases hs : listSlice (expand_to_contain step m j).sequence (startIndex b)
          (min ((expand_to_contain step m j).sequence.length - 1) j + 1) <;> simp [hs, hp]
    · rw [if_neg hc]
      simp [hp]
  | excluded j =>
    have hp := expand_len step sz h2 m (j - 1)
    rw [get_slice_excluded_eq]
    cases hs : listSlice (expand_to_contain step m (j - 1)).sequence
        (min (startIndex b) (min (expand_to_contain step m (j - 1)).sequence.length j))
        (min (expand_to_contain step m (j - 1)).sequence.length j) <;> simp [hs, hp]

/-- Claim C10: when the wrapped producer honours the `ExactSizeIterator`
contract, the container's `len` is the cache length plus the producer's
reported remaining count, and this total is invariant under `get`, the
iteration overlay, and every defined `get_slice` — so it holds at every point
of the container's lifetime. -/
theorem c10_len_exact_size {σ α : Type} (step : σ → Option (α × σ)) (sz : σ → Nat)
    (m : MemoIter σ α) (i : Nat) (b e : Bound)
    (h : IsExactSize step sz) :
    len sz m = m.sequence.length + sz m.iterator ∧
    len sz (get step m i).1 = len sz m ∧
    len sz (next step m).1 = len sz m ∧
    (get_slice step m b e).map (fun r => len sz r.1) =
      (get_slice step m b e).map (fun _ => len sz m) := by
  refine ⟨rfl, expand_len step sz h.2 m i, ?_, get_slice_len_invariant step sz h.2 m b e⟩
  cases hm : m.exhausted with
  | true => simp [next, hm]
  | false =>
    cases hstep : step m.iterator with
    | none => simp [next, hm, hstep, len]
    | some p =>
      obtain ⟨a, s2⟩ := p
      simp only [next, hm, hstep, Bool.not_false, if_true]
      simp only [len, List.length_append, List.length_cons, List.length_nil]
      rw [h.2 m.iterator a s2 hstep]
      omega

/-- Witness for C10 at a concrete input: the producer `0..2` with remaining
count `2 - s` honours the exact-size contract, and the container built on it
reports a constant total of 2. -/
theorem c10_len_witness :
    IsExactSize (rangeStep 2) (fun s => 2 - s) ∧
    (len (fun s => 2 - s) (MemoIter.new 0 : MemoIter Nat Nat) =
        (MemoIter.new 0 : MemoIter Nat Nat).sequence.length +
          (fun s => 2 - s) (MemoIter.new 0 : MemoIter Nat Nat).iterator ∧
      len (fun s => 2 - s) (get (rangeStep 2) (MemoIter.new 0) 5).1 =
        len (fun s => 2 - s) (MemoIter.new 0 : MemoIter Nat Nat) ∧
      len (fun s => 2 - s) (next (rangeStep 2) (MemoIter.new 0)).1 =
        len (fun s => 2 - s) (MemoIter.new 0 : MemoIter Nat Nat) ∧
      (get_slice (rangeStep 2) (MemoIter.new 0) Bound.unbounded Bound.unbounded).map
          (fun r => len (fun s => 2 - s) r.1) =
        (get_slice (rangeStep 2) (MemoIter.new 0) Bound.unbounded Bound.unbounded).map
          (fun _ => len (fun s => 2 - s) (MemoIter.new 0 : MemoIter Nat Nat))) := by
  have hx : IsExactSize (rangeStep 2) (fun s => 2 - s) := by
    constructor
    · intro s hs
      by_cases h2 : s < 2
      · simp [rangeStep, h2] at hs
      · show 2 - s = 0
        omega
    · intro s a s2 hs
      by_cases h2 : s < 2
      · simp only [rangeStep, h2, if_true, Option.some.injEq, Prod.mk.injEq] at hs
        show 2 - s = 2 - s2 + 1
        omega
      · simp [rangeStep, h2] at hs
  exact ⟨hx, c10_len_exact_size (rangeStep 2) (fun s => 2 - s) (MemoIter.new 0) 5
    Bound.unbounded Bound.unbounded hx⟩

end Memoiter
